import Mathlib

/-!
Verification of the transactional key-value store in
`src/kvs/key_value_store.h` (`KeyValueStore<T>`).

The C++ `std::unordered_map<std::string, V>` is embedded as an association
list `Map V := List (String × V)` whose operations keep at most one entry
per key when starting from a map with distinct keys; iteration order of the
C++ container is unspecified, so every property proved here about the
contents of a map is phrased through `mapFind?` (entry lookup), lengths and
filters, never through a particular ordering.

The member `transactions_` (a `std::vector` of diff layers whose `back()` is
the innermost, most recently opened transaction) is embedded as a Lean list
whose HEAD is the innermost layer; the C++ vector's front (oldest layer) is
the Lean list's last element.  A layer maps keys to `Option T`:
`some v` is a set/overwrite, `none` is a tombstone (`std::nullopt`).
-/

namespace KVStore

/-- Association-list embedding of `std::unordered_map<std::string, V>`. -/
abbrev Map (V : Type) := List (String × V)

/-- Lookup, as `m.find(k)`: the value of the first (hence, for key-distinct maps, the
only) entry with key `k`, or `none` when the map holds no entry for `k`. -/
def mapFind? {V : Type} : Map V → String → Option V
  | [], _ => none
  | (k', v) :: rest, k => if k' = k then some v else mapFind? rest k

/-- Insert-or-assign, as C++ `m[k] = v` (`operator[]` followed by assignment).
Replaces the entry for `k` in place when present, else appends a new one. -/
def mapInsert {V : Type} : Map V → String → V → Map V
  | [], k, v => [(k, v)]
  | (k', v') :: rest, k, v =>
      if k' = k then (k, v) :: rest else (k', v') :: mapInsert rest k v

/-- Erasure, as `m.erase(k)`: remove every entry with key `k` (at most one in a
key-distinct map); erasing an absent key leaves the map unchanged. -/
def mapErase {V : Type} : Map V → String → Map V
  | [], _ => []
  | (k', v') :: rest, k =>
      if k' = k then mapErase rest k else (k', v') :: mapErase rest k

/-- The keys of a map, in entry order. -/
def keysOf {V : Type} (m : Map V) : List String := m.map Prod.fst

/-- The map holds at most one entry per key (always true of the C++
`unordered_map`; an invariant of this list embedding). -/
def NodupKeys {V : Type} (m : Map V) : Prop := (keysOf m).Nodup

/-- One transaction layer: key → (`some` value | `none` = tombstone),
embedding `std::unordered_map<std::string, std::optional<T>>`. -/
abbrev Layer (T : Type) := Map (Option T)

/-- The store: committed base data plus the stack of open transaction
layers.  `transactions_` head = innermost layer (C++ `back()`). -/
structure KeyValueStore (T : Type) where
  data_ : Map T
  transactions_ : List (Layer T)

/-- The freshly constructed store: empty base, no open transaction. -/
def KeyValueStore.empty (T : Type) : KeyValueStore T := ⟨[], []⟩

/-- Apply one diff layer onto a running result, entry by entry: a tombstone
erases the key, a present value overwrites it.  This is the loop body of
`BuildVisibleState` and also the empty-stack branch of `Commit`. -/
def applyLayer {T : Type} (result : Map T) (diff : Layer T) : Map T :=
  diff.foldl
    (fun res kv =>
      match kv.2 with
      | none => mapErase res kv.1
      | some v => mapInsert res kv.1 v)
    result

/-- The private helper `BuildVisibleState`: start from a copy of the base data and apply each
transaction layer from oldest to newest.  Our list has the newest layer at
the head, so `foldr` applies the last (oldest) layer first. -/
def KeyValueStore.BuildVisibleState {T : Type} (s : KeyValueStore T) : Map T :=
  s.transactions_.foldr (fun diff acc => applyLayer acc diff) s.data_

/-- The scan loop of `Get`: walk the layers from innermost to outermost and
return the first entry found for `key` (`some (some v)` a value,
`some none` a tombstone), or `none` when no layer mentions `key`. -/
def scanLayers {T : Type} : List (Layer T) → String → Option (Option T)
  | [], _ => none
  | layer :: rest, key =>
      match mapFind? layer key with
      | some entry => some entry
      | none => scanLayers rest key

/-- The read path `Get(key)`: search from the topmost transaction down to the base; a
tombstone returns `std::nullopt`, a value returns it; otherwise fall back
to the base store. -/
def KeyValueStore.Get {T : Type} (s : KeyValueStore T) (key : String) : Option T :=
  match scanLayers s.transactions_ key with
  | some entry =>
      match entry with
      | none => none
      | some v => some v
  | none => mapFind? s.data_ key

/-- The write path `Set(key, value)`: record in the topmost diff when a transaction is
open, else update the base store directly. -/
def KeyValueStore.Set {T : Type} (s : KeyValueStore T) (key : String) (value : T) :
    KeyValueStore T :=
  match s.transactions_ with
  | top :: rest => { s with transactions_ := mapInsert top key (some value) :: rest }
  | [] => { s with data_ := mapInsert s.data_ key value }

/-- The delete path `Del(key)`: record a tombstone in the topmost diff when a transaction is
open, else erase from the base store. -/
def KeyValueStore.Del {T : Type} (s : KeyValueStore T) (key : String) :
    KeyValueStore T :=
  match s.transactions_ with
  | top :: rest => { s with transactions_ := mapInsert top key none :: rest }
  | [] => { s with data_ := mapErase s.data_ key }

/-- Transaction start `Begin()`: push a new empty diff map. -/
def KeyValueStore.Begin {T : Type} (s : KeyValueStore T) : KeyValueStore T :=
  { s with transactions_ := [] :: s.transactions_ }

/-- The merge loop of `Commit` when another transaction remains below:
`below_diff[kv.first] = kv.second` for every entry of the popped diff. -/
def mergeInto {T : Type} (below top : Layer T) : Layer T :=
  top.foldl (fun acc kv => mapInsert acc kv.1 kv.2) below

/-- Transaction close `Commit()`: no-op on an empty stack; otherwise pop the topmost diff and
merge it into the next layer down when one exists, else into the base store
(tombstones erase, values overwrite). -/
def KeyValueStore.Commit {T : Type} (s : KeyValueStore T) : KeyValueStore T :=
  match s.transactions_ with
  | [] => s
  | top_diff :: rest =>
      match rest with
      | below_diff :: deeper =>
          { s with transactions_ := mergeInto below_diff top_diff :: deeper }
      | [] => { s with data_ := applyLayer s.data_ top_diff, transactions_ := [] }

/-- Transaction abort `Rollback()`: no-op on an empty stack; otherwise discard the topmost
diff. -/
def KeyValueStore.Rollback {T : Type} (s : KeyValueStore T) : KeyValueStore T :=
  match s.transactions_ with
  | [] => s
  | _ :: rest => { s with transactions_ := rest }

/-- Enumeration `Keys(with_value)`: the keys of the visible state, restricted to those
whose value equals the filter when one is given. -/
def KeyValueStore.Keys {T : Type} [DecidableEq T] (s : KeyValueStore T)
    (with_value : Option T) : List String :=
  let state := s.BuildVisibleState
  state.foldl
    (fun keys kv =>
      match with_value with
      | some v => if kv.2 = v then keys ++ [kv.1] else keys
      | none => keys ++ [kv.1])
    []

/-- Enumeration `Values()`: all values of the visible state, one per entry. -/
def KeyValueStore.Values {T : Type} (s : KeyValueStore T) : List T :=
  let state := s.BuildVisibleState
  state.foldl (fun vals kv => vals ++ [kv.2]) []

/-- The modulus of the C++ `uint32_t`: `2^32`. -/
def UINT32_MOD : Nat := 4294967296

/-- Aggregate `Count(with_value)`: the size of the visible state, or the
number of its entries whose value equals the filter.  The C++ Count returns
`uint32_t`: the unfiltered branch truncates `state.size()` through
`static_cast<uint32_t>` (reduction modulo `2^32`, whatever the width of
`size_t`, since `2^32` divides `2^64`), and the filtered branch increments
a `uint32_t` counter, whose `count++` wraps modulo `2^32`. -/
def KeyValueStore.Count {T : Type} [DecidableEq T] (s : KeyValueStore T)
    (with_value : Option T) : Nat :=
  let state := s.BuildVisibleState
  match with_value with
  | none => state.length % UINT32_MOD
  | some v =>
      state.foldl (fun c kv => if kv.2 = v then (c + 1) % UINT32_MOD else c) 0

/-- The externally callable mutating operations, for quantifying over
arbitrary call sequences. -/
inductive Op (T : Type) where
  | beginTx : Op T
  | commitTx : Op T
  | rollbackTx : Op T
  | setKV : String → T → Op T
  | delKV : String → Op T

/-- Run one operation on the store. -/
def applyOp {T : Type} (s : KeyValueStore T) : Op T → KeyValueStore T
  | Op.beginTx => s.Begin
  | Op.commitTx => s.Commit
  | Op.rollbackTx => s.Rollback
  | Op.setKV k v => s.Set k v
  | Op.delKV k => s.Del k

/-- Run a sequence of operations from the freshly constructed store. -/
def runOps {T : Type} (ops : List (Op T)) : KeyValueStore T :=
  ops.foldl applyOp (KeyValueStore.empty T)

/-- The pure mutation calls (`Set`/`Del` only), for quantifying over the
"arbitrary mutations" inside a transaction. -/
inductive Mut (T : Type) where
  | setKV : String → T → Mut T
  | delKV : String → Mut T

/-- Run one mutation call on the store. -/
def applyMut {T : Type} (s : KeyValueStore T) : Mut T → KeyValueStore T
  | Mut.setKV k v => s.Set k v
  | Mut.delKV k => s.Del k

/-- Every map of the store (base and each layer) has at most one entry per
key — always true of the C++ `unordered_map`s, an invariant of the list
embedding. -/
def WF {T : Type} (s : KeyValueStore T) : Prop :=
  NodupKeys s.data_ ∧ ∀ l ∈ s.transactions_, NodupKeys l

/-- A family of pairwise distinct keys: the string of `i` letters `a`. -/
def tallKey (i : Nat) : String := String.mk (List.replicate i 'a')

/-- Entries mapping `2^32` pairwise distinct keys to the value `0`. -/
def overflowPairs : List (String × Nat) :=
  (List.range UINT32_MOD).map (fun i => (tallKey i, 0))

/-- An operation sequence of `2^32` `Set` calls with pairwise distinct keys
and value `0`, all outside any transaction. -/
def overflowOps : List (Op Nat) :=
  overflowPairs.map (fun p => Op.setKV p.1 p.2)

/-! ### Basic lookup lemmas for the map embedding -/

theorem mapFind_insert_self {V : Type} (m : Map V) (k : String) (v : V) :
    mapFind? (mapInsert m k v) k = some v := by
  induction m with
  | nil => simp [mapInsert, mapFind?]
  | cons hd tl ih =>
      by_cases h : hd.1 = k <;> simp [mapInsert, mapFind?, h, ih]

theorem mapFind_insert_ne {V : Type} (m : Map V) (k' k : String) (v : V)
    (h : k' ≠ k) : mapFind? (mapInsert m k' v) k = mapFind? m k := by
  induction m with
  | nil => simp [mapInsert, mapFind?, h]
  | cons hd tl ih =>
      by_cases h1 : hd.1 = k' <;> simp [mapInsert, mapFind?, h1, h, ih]

theorem mapFind_erase_self {V : Type} (m : Map V) (k : String) :
    mapFind? (mapErase m k) k = none := by
  induction m with
  | nil => simp [mapErase, mapFind?]
  | cons hd tl ih =>
      by_cases h : hd.1 = k <;> simp [mapErase, mapFind?, h, ih]

theorem mapFind_erase_ne {V : Type} (m : Map V) (k' k : String)
    (h : k' ≠ k) : mapFind? (mapErase m k') k = mapFind? m k := by
  induction m with
  | nil => simp [mapErase]
  | cons hd tl ih =>
      obtain ⟨k1, v1⟩ := hd
      by_cases h1 : k1 = k'
      · have h2 : ¬k1 = k := by rw [h1]; exact h
        simp [mapErase, mapFind?, h1, h2, h, ih]
      · by_cases h2 : k1 = k <;>
          simp [mapErase, mapFind?, h1, h2, h, Ne.symm h, ih]

theorem keysOf_cons {V : Type} (p : String × V) (tl : Map V) :
    keysOf (p :: tl) = p.1 :: keysOf tl := rfl

theorem mapFind_eq_none_of_not_mem {V : Type} (m : Map V) (k : String)
    (h : k ∉ keysOf m) : mapFind? m k = none := by
  induction m with
  | nil => simp [mapFind?]
  | cons hd tl ih =>
      rw [keysOf_cons, List.mem_cons] at h
      push_neg at h
      have h1 : ¬hd.1 = k := fun h2 => h.1 h2.symm
      simp [mapFind?, h1, ih h.2]

/-! ### Key-distinctness is preserved by every map operation -/

theorem mem_keysOf_insert {V : Type} (m : Map V) (k a : String) (v : V) :
    a ∈ keysOf (mapInsert m k v) ↔ a ∈ keysOf m ∨ a = k := by
  induction m with
  | nil => simp [mapInsert, keysOf]
  | cons hd tl ih =>
      obtain ⟨k1, v1⟩ := hd
      by_cases h : k1 = k
      · subst h
        simp [mapInsert, keysOf_cons]
        tauto
      · simp [mapInsert, h, keysOf_cons, ih]
        tauto

theorem nodupKeys_insert {V : Type} (m : Map V) (k : String) (v : V)
    (h : NodupKeys m) : NodupKeys (mapInsert m k v) := by
  induction m with
  | nil => simp [mapInsert, NodupKeys, keysOf]
  | cons hd tl ih =>
      obtain ⟨k1, v1⟩ := hd
      simp only [NodupKeys, keysOf_cons, List.nodup_cons] at h
      by_cases h1 : k1 = k
      · have e : mapInsert ((k1, v1) :: tl) k v = (k, v) :: tl := by
          simp [mapInsert, h1]
        rw [e]
        simp only [NodupKeys, keysOf_cons, List.nodup_cons]
        exact ⟨h1 ▸ h.1, h.2⟩
      · have e : mapInsert ((k1, v1) :: tl) k v = (k1, v1) :: mapInsert tl k v := by
          simp [mapInsert, h1]
        rw [e]
        simp only [NodupKeys, keysOf_cons, List.nodup_cons]
        refine ⟨fun hmem => ?_, ih h.2⟩
        rcases (mem_keysOf_insert tl k k1 v).1 hmem with h2 | h2
        · exact h.1 h2
        · exact h1 h2

theorem nodupKeys_erase {V : Type} (m : Map V) (k : String)
    (h : NodupKeys m) : NodupKeys (mapErase m k) := by
  have hsub : ∀ n : Map V, (mapErase n k).Sublist n := by
    intro n
    induction n with
    | nil => exact List.Sublist.refl []
    | cons hd tl ih =>
        obtain ⟨k1, v1⟩ := hd
        by_cases h1 : k1 = k
        · rw [show mapErase ((k1, v1) :: tl) k = mapErase tl k by simp [mapErase, h1]]
          exact ih.cons (k1, v1)
        · rw [show mapErase ((k1, v1) :: tl) k = (k1, v1) :: mapErase tl k by
            simp [mapErase, h1]]
          exact ih.cons₂ (k1, v1)
  exact List.Nodup.sublist ((hsub m).map Prod.fst) h

/-! ### How applying a layer, or merging one, affects lookups -/

theorem mapFind_applyLayer {T : Type} (diff : Layer T) (result : Map T) (k : String)
    (h : NodupKeys diff) :
    mapFind? (applyLayer result diff) k =
      match mapFind? diff k with
      | some none => none
      | some (some v) => some v
      | none => mapFind? result k := by
  induction diff generalizing result with
  | nil => simp [applyLayer, mapFind?]
  | cons hd tl ih =>
      obtain ⟨k1, e1⟩ := hd
      simp only [NodupKeys, keysOf_cons, List.nodup_cons] at h
      have hstep : applyLayer result ((k1, e1) :: tl) =
          applyLayer
            (match e1 with
             | none => mapErase result k1
             | some v => mapInsert result k1 v) tl := by
        cases e1 <;> rfl
      rw [hstep, ih _ h.2]
      by_cases h1 : k1 = k
      · subst h1
        rw [mapFind_eq_none_of_not_mem tl k1 h.1]
        cases e1 <;> simp [mapFind?, mapFind_erase_self, mapFind_insert_self]
      · cases e1 <;>
          simp [mapFind?, h1, mapFind_erase_ne _ _ _ h1, mapFind_insert_ne _ _ _ _ h1]

theorem mapFind_mergeInto {T : Type} (top below : Layer T) (k : String)
    (h : NodupKeys top) :
    mapFind? (mergeInto below top) k =
      match mapFind? top k with
      | some e => some e
      | none => mapFind? below k := by
  induction top generalizing below with
  | nil => simp [mergeInto, mapFind?]
  | cons hd tl ih =>
      obtain ⟨k1, e1⟩ := hd
      simp only [NodupKeys, keysOf_cons, List.nodup_cons] at h
      have hstep : mergeInto below ((k1, e1) :: tl) =
          mergeInto (mapInsert below k1 e1) tl := rfl
      rw [hstep, ih _ h.2]
      by_cases h1 : k1 = k
      · subst h1
        rw [mapFind_eq_none_of_not_mem tl k1 h.1]
        simp [mapFind?, mapFind_insert_self]
      · simp [mapFind?, h1, mapFind_insert_ne _ _ _ _ h1]

theorem nodupKeys_applyLayer {T : Type} (diff : Layer T) (result : Map T)
    (h : NodupKeys result) : NodupKeys (applyLayer result diff) := by
  induction diff generalizing result with
  | nil => exact h
  | cons hd tl ih =>
      obtain ⟨k1, e1⟩ := hd
      cases e1 with
      | none => exact ih (mapErase result k1) (nodupKeys_erase _ _ h)
      | some v => exact ih (mapInsert result k1 v) (nodupKeys_insert _ _ _ h)

theorem nodupKeys_mergeInto {T : Type} (top below : Layer T)
    (h : NodupKeys below) : NodupKeys (mergeInto below top) := by
  induction top generalizing below with
  | nil => exact h
  | cons hd tl ih => exact ih (mapInsert below hd.1 hd.2) (nodupKeys_insert _ _ _ h)

/-! ### Well-formedness: every reachable store has key-distinct maps -/

theorem wf_empty (T : Type) : WF (KeyValueStore.empty T) :=
  ⟨List.nodup_nil, by simp [KeyValueStore.empty]⟩

theorem wf_applyOp {T : Type} (s : KeyValueStore T) (op : Op T) (h : WF s) :
    WF (applyOp s op) := by
  obtain ⟨hd, ht⟩ := h
  cases op with
  | beginTx =>
      refine ⟨hd, fun l hl => ?_⟩
      rcases List.mem_cons.1 hl with h1 | h1
      · subst h1; exact List.nodup_nil
      · exact ht l h1
  | commitTx =>
      cases hts : s.transactions_ with
      | nil => simpa [applyOp, KeyValueStore.Commit, hts] using ⟨hd, ht⟩
      | cons top rest =>
          cases rest with
          | nil =>
              refine ⟨?_, by simp [applyOp, KeyValueStore.Commit, hts]⟩
              simpa [applyOp, KeyValueStore.Commit, hts] using
                nodupKeys_applyLayer top s.data_ hd
          | cons below deeper =>
              refine ⟨by simpa [applyOp, KeyValueStore.Commit, hts] using hd,
                fun l hl => ?_⟩
              simp only [applyOp, KeyValueStore.Commit, hts] at hl
              rcases List.mem_cons.1 hl with h1 | h1
              · subst h1
                exact nodupKeys_mergeInto top below (ht below (by simp [hts]))
              · exact ht l (by simp [hts, h1])
  | rollbackTx =>
      cases hts : s.transactions_ with
      | nil => simpa [applyOp, KeyValueStore.Rollback, hts] using ⟨hd, ht⟩
      | cons top rest =>
          exact ⟨by simpa [applyOp, KeyValueStore.Rollback, hts] using hd,
            fun l hl => ht l (by
              simp only [applyOp, KeyValueStore.Rollback, hts] at hl
              simp [hts, hl])⟩
  | setKV k v =>
      cases hts : s.transactions_ with
      | nil =>
          exact ⟨by simpa [applyOp, KeyValueStore.Set, hts] using
              nodupKeys_insert s.data_ k v hd,
            by simp [applyOp, KeyValueStore.Set, hts]⟩
      | cons top rest =>
          refine ⟨by simpa [applyOp, KeyValueStore.Set, hts] using hd,
            fun l hl => ?_⟩
          simp only [applyOp, KeyValueStore.Set, hts] at hl
          rcases List.mem_cons.1 hl with h1 | h1
          · subst h1
            exact nodupKeys_insert top k (some v) (ht top (by simp [hts]))
          · exact ht l (by simp [hts, h1])
  | delKV k =>
      cases hts : s.transactions_ with
      | nil =>
          exact ⟨by simpa [applyOp, KeyValueStore.Del, hts] using
              nodupKeys_erase s.data_ k hd,
            by simp [applyOp, KeyValueStore.Del, hts]⟩
      | cons top rest =>
          refine ⟨by simpa [applyOp, KeyValueStore.Del, hts] using hd,
            fun l hl => ?_⟩
          simp only [applyOp, KeyValueStore.Del, hts] at hl
          rcases List.mem_cons.1 hl with h1 | h1
          · subst h1
            exact nodupKeys_insert top k none (ht top (by simp [hts]))
          · exact ht l (by simp [hts, h1])

theorem wf_runOps {T : Type} (ops : List (Op T)) : WF (runOps ops) := by
  suffices h : ∀ s : KeyValueStore T, WF s → WF (ops.foldl applyOp s) from
    h _ (wf_empty T)
  induction ops with
  | nil => exact fun s hs => hs
  | cons op rest ih => exact fun s hs => ih _ (wf_applyOp s op hs)

/-! ### The scan of `Get` agrees with the fold of `BuildVisibleState` -/

theorem get_eq_find_fold {T : Type} (data : Map T) (layers : List (Layer T))
    (k : String) (h : ∀ l ∈ layers, NodupKeys l) :
    (KeyValueStore.mk data layers).Get k
      = mapFind? ((KeyValueStore.mk data layers).BuildVisibleState) k := by
  induction layers with
  | nil => rfl
  | cons layer rest ih =>
      have hbvs : (KeyValueStore.mk data (layer :: rest)).BuildVisibleState
          = applyLayer ((KeyValueStore.mk data rest).BuildVisibleState) layer := rfl
      rw [hbvs, mapFind_applyLayer layer _ k (h layer (by simp))]
      cases hfind : mapFind? layer k with
      | some e =>
          cases e <;>
            simp [KeyValueStore.Get, scanLayers, hfind]
      | none =>
          have hr := ih (fun l hl => h l (by simp [hl]))
          simp only [KeyValueStore.Get, scanLayers, hfind] at hr ⊢
          exact hr

/-! ### Mutations inside an open transaction only touch the top layer -/

theorem foldl_applyMut_cons {T : Type} (muts : List (Mut T)) (d : Map T)
    (layer : Layer T) (rest : List (Layer T)) :
    ∃ layer', muts.foldl applyMut ⟨d, layer :: rest⟩ = ⟨d, layer' :: rest⟩ := by
  induction muts generalizing layer with
  | nil => exact ⟨layer, rfl⟩
  | cons m ms ih =>
      cases m with
      | setKV k v =>
          obtain ⟨l', hl⟩ := ih (mapInsert layer k (some v))
          exact ⟨l', by simpa [applyMut, KeyValueStore.Set] using hl⟩
      | delKV k =>
          obtain ⟨l', hl⟩ := ih (mapInsert layer k none)
          exact ⟨l', by simpa [applyMut, KeyValueStore.Del] using hl⟩

/-! ### Claim theorems -/

/-- C1: Visibility equivalence.  After any finite sequence of
`Begin`/`Set`/`Del`/`Commit`/`Rollback` operations starting from a freshly
constructed store, `Get k` returns exactly the value (or absence) that `k`
has in the visible state obtained by folding every open transaction layer
onto the base store in oldest-to-newest order: the innermost-to-outermost
scan of `Get` and the left-to-right fold of `BuildVisibleState` agree on
every key in every reachable state. -/
theorem C1_visibility_equivalence {T : Type} (ops : List (Op T)) (k : String) :
    (runOps ops).Get k = mapFind? ((runOps ops).BuildVisibleState) k := by
  exact get_eq_find_fold (runOps ops).data_ (runOps ops).transactions_ k
    (wf_runOps ops).2

/-- C3: Rollback is a pure undo.  From any store state, `Begin()` followed
by an arbitrary finite sequence of `Set`/`Del` calls followed by
`Rollback()` restores exactly the original store (base store and all outer
layers included), and in particular the visible state. -/
theorem C3_rollback_pure_undo {T : Type} (s : KeyValueStore T)
    (muts : List (Mut T)) :
    (muts.foldl applyMut s.Begin).Rollback = s ∧
    ((muts.foldl applyMut s.Begin).Rollback).BuildVisibleState
      = s.BuildVisibleState := by
  obtain ⟨l', hl⟩ := foldl_applyMut_cons muts s.data_ [] s.transactions_
  have h1 : (muts.foldl applyMut s.Begin).Rollback = s := by
    have hb : s.Begin = ⟨s.data_, [] :: s.transactions_⟩ := rfl
    rw [hb, hl]
    rfl
  exact ⟨h1, by rw [h1]⟩

/-- C7: Tombstone precedence on merge-then-discard.  From a store with no
open transaction, `Set(k,v1); Begin(); Del(k); Begin(); Set(k,v2);
Commit(); Rollback()` leaves `Get(k)` returning `v1`: the commit merges
`k ↦ v2` over the outer layer's tombstone, and the rollback then discards
that whole outer layer, restoring the committed value. -/
theorem C7_tombstone_merge_then_discard {T : Type} (s : KeyValueStore T)
    (k : String) (v1 v2 : T) (h : s.transactions_ = []) :
    (((((((s.Set k v1).Begin).Del k).Begin).Set k v2).Commit).Rollback).Get k
      = some v1 := by
  obtain ⟨d, ts⟩ := s
  have h' : ts = [] := h
  subst h'
  show mapFind? (mapInsert d k v1) k = some v1
  exact mapFind_insert_self d k v1

/-- Witness for C7 at the freshly constructed store with `k = "k"`,
`v1 = 1`, `v2 = 2`. -/
theorem C7_witness :
    (KeyValueStore.empty Nat).transactions_ = [] ∧
    ((((((((KeyValueStore.empty Nat).Set "k" 1).Begin).Del "k").Begin).Set
        "k" 2).Commit).Rollback).Get "k" = some 1 :=
  ⟨rfl, C7_tombstone_merge_then_discard (KeyValueStore.empty Nat) "k" 1 2 rfl⟩

/-- C8: Unmatched `Commit`/`Rollback` are no-ops.  When the diff stack is
empty, both calls return the store exactly unchanged (base store and stack
alike). -/
theorem C8_unmatched_commit_rollback_noop {T : Type} (s : KeyValueStore T)
    (h : s.transactions_ = []) :
    s.Commit = s ∧ s.Rollback = s := by
  obtain ⟨d, ts⟩ := s
  have h' : ts = [] := h
  subst h'
  exact ⟨rfl, rfl⟩

/-- Witness for C8 at the freshly constructed store. -/
theorem C8_witness :
    (KeyValueStore.empty Nat).transactions_ = [] ∧
    ((KeyValueStore.empty Nat).Commit = KeyValueStore.empty Nat ∧
     (KeyValueStore.empty Nat).Rollback = KeyValueStore.empty Nat) :=
  ⟨rfl, C8_unmatched_commit_rollback_noop (KeyValueStore.empty Nat) rfl⟩

/-- C10: `Set` overwrites a same-layer tombstone.  With at least one open
transaction, `Del(k)` then `Set(k, v)` in the same innermost layer replaces
the recorded tombstone with the value `v` (the innermost layer then holds
the entry `k ↦ v`), so `Get(k)` returns `v`. -/
theorem C10_set_overwrites_tombstone {T : Type} (s : KeyValueStore T)
    (k : String) (v : T) (h : s.transactions_ ≠ []) :
    ((s.Del k).Set k v).Get k = some v ∧
    (∃ top rest, ((s.Del k).Set k v).transactions_ = top :: rest ∧
      mapFind? top k = some (some v)) := by
  obtain ⟨d, ts⟩ := s
  cases ts with
  | nil => exact absurd rfl h
  | cons t rest =>
      constructor
      · show (KeyValueStore.Get
            ⟨d, mapInsert (mapInsert t k none) k (some v) :: rest⟩ k) = some v
        simp [KeyValueStore.Get, scanLayers, mapFind_insert_self]
      · exact ⟨mapInsert (mapInsert t k none) k (some v), rest, rfl,
          mapFind_insert_self _ _ _⟩

/-- Witness for C10 at a store with one open (empty) transaction layer,
`k = "k"`, `v = 5`. -/
theorem C10_witness :
    (⟨[], [[]]⟩ : KeyValueStore Nat).transactions_ ≠ [] ∧
    ((((⟨[], [[]]⟩ : KeyValueStore Nat).Del "k").Set "k" 5).Get "k" = some 5 ∧
     (∃ top rest,
        (((⟨[], [[]]⟩ : KeyValueStore Nat).Del "k").Set "k" 5).transactions_
          = top :: rest ∧ mapFind? top "k" = some (some 5))) :=
  ⟨by simp, C10_set_overwrites_tombstone ⟨[], [[]]⟩ "k" 5 (by simp)⟩

/-! ### Scan lemmas and the erase no-op lemma -/

theorem scanLayers_first_hit {T : Type} (pre : List (Layer T)) (layer : Layer T)
    (post : List (Layer T)) (k : String) (entry : Option T)
    (hpre : ∀ l ∈ pre, mapFind? l k = none)
    (hhit : mapFind? layer k = some entry) :
    scanLayers (pre ++ layer :: post) k = some entry := by
  induction pre with
  | nil => simp [scanLayers, hhit]
  | cons p ps ih =>
      have hp := hpre p (by simp)
      simp only [List.cons_append, scanLayers, hp]
      exact ih fun l hl => hpre l (by simp [hl])

theorem scanLayers_all_miss {T : Type} (layers : List (Layer T)) (k : String)
    (h : ∀ l ∈ layers, mapFind? l k = none) :
    scanLayers layers k = none := by
  induction layers with
  | nil => rfl
  | cons p ps ih =>
      have hp := h p (by simp)
      simp only [scanLayers, hp]
      exact ih fun l hl => h l (by simp [hl])

theorem mapErase_of_find_none {V : Type} (m : Map V) (k : String)
    (h : mapFind? m k = none) : mapErase m k = m := by
  induction m with
  | nil => rfl
  | cons hd tl ih =>
      obtain ⟨k1, v1⟩ := hd
      by_cases h1 : k1 = k
      · simp [mapFind?, h1] at h
      · simp only [mapFind?, if_neg h1] at h
        simp [mapErase, h1, ih h]

/-- C4: `Get` resolution order.  The scan walks the diff stack from
innermost to outermost: at the first layer holding an entry for the key it
returns absent for a tombstone and the value otherwise, regardless of what
outer layers or the base store hold; if no layer holds the key it falls
back to the base store.  (`Get` is a pure function of the store, so it can
modify nothing and has no failure outcome.) -/
theorem C4_get_resolution_order {T : Type} (s : KeyValueStore T) (k : String) :
    (∀ pre layer post entry,
        s.transactions_ = pre ++ layer :: post →
        (∀ l ∈ pre, mapFind? l k = none) →
        mapFind? layer k = some entry →
        s.Get k = match entry with | none => none | some v => some v) ∧
    ((∀ l ∈ s.transactions_, mapFind? l k = none) →
        s.Get k = mapFind? s.data_ k) := by
  constructor
  · intro pre layer post entry hsplit hpre hhit
    have hs := scanLayers_first_hit pre layer post k entry hpre hhit
    simp only [KeyValueStore.Get, hsplit, hs]
    cases entry <;> rfl
  · intro hmiss
    have hs := scanLayers_all_miss s.transactions_ k hmiss
    simp only [KeyValueStore.Get, hs]

/-- Witness for C4: a tombstone in the innermost of two layers wins over
the outer layer and the base (first conjunct, `pre = []`); a key in no
layer falls back to the base store (second conjunct). -/
theorem C4_witness :
    ((⟨[("k", 7)], [[("k", (none : Option Nat))], [("k", some 9)]]⟩ :
        KeyValueStore Nat).Get "k" = none) ∧
    ((⟨[("a", 7)], [[("k", (some 3 : Option Nat))]]⟩ :
        KeyValueStore Nat).Get "a" = some 7) := by
  constructor
  · exact (C4_get_resolution_order _ "k").1 [] [("k", none)] [[("k", some 9)]]
      none rfl (by simp) (by simp [mapFind?])
  · exact (C4_get_resolution_order _ "a").2 (by
      intro l hl
      simp only [List.mem_singleton] at hl
      subst hl
      decide)

/-- C5: `Set` write target and frame.  With an open transaction, `Set`
rewrites only the innermost layer — it now maps the key to the value, other
keys of that layer are untouched — and outer layers and the base store are
exactly unchanged.  With no open transaction, `Set` writes the base store
directly and the diff stack stays empty. -/
theorem C5_set_write_target {T : Type} (s : KeyValueStore T) (k : String)
    (v : T) :
    (∀ top rest, s.transactions_ = top :: rest →
        (s.Set k v).data_ = s.data_ ∧
        (s.Set k v).transactions_ = mapInsert top k (some v) :: rest ∧
        mapFind? (mapInsert top k (some v)) k = some (some v) ∧
        (∀ k2, k2 ≠ k →
          mapFind? (mapInsert top k (some v)) k2 = mapFind? top k2)) ∧
    (s.transactions_ = [] →
        (s.Set k v).transactions_ = [] ∧
        (s.Set k v).data_ = mapInsert s.data_ k v ∧
        mapFind? (mapInsert s.data_ k v) k = some v ∧
        (∀ k2, k2 ≠ k →
          mapFind? (mapInsert s.data_ k v) k2 = mapFind? s.data_ k2)) := by
  obtain ⟨d, ts⟩ := s
  constructor
  · intro top rest hts
    have h' : ts = top :: rest := hts
    subst h'
    exact ⟨rfl, rfl, mapFind_insert_self _ _ _,
      fun k2 h2 => mapFind_insert_ne _ _ _ _ (Ne.symm h2)⟩
  · intro hts
    have h' : ts = [] := hts
    subst h'
    exact ⟨rfl, rfl, mapFind_insert_self _ _ _,
      fun k2 h2 => mapFind_insert_ne _ _ _ _ (Ne.symm h2)⟩

/-- Witness for C5: one open transaction (`k = "k"`, `v = 4`, another key
`"b"` checked for the frame), and the empty-stack case on a base holding
`"b"`. -/
theorem C5_witness :
    ((⟨[("b", 9)], [[("b", some 1)]]⟩ : KeyValueStore Nat).Set "k" 4).data_
        = [("b", 9)] ∧
    ((⟨[("b", 9)], [[("b", some 1)]]⟩ : KeyValueStore Nat).Set "k" 4).transactions_
        = [mapInsert [("b", some 1)] "k" (some 4)] ∧
    mapFind? (mapInsert [("b", (some 1 : Option Nat))] "k" (some 4)) "b"
        = mapFind? [("b", (some 1 : Option Nat))] "b" ∧
    ((⟨[("b", 9)], []⟩ : KeyValueStore Nat).Set "k" 4).data_
        = mapInsert [("b", 9)] "k" 4 := by
  have h1 := (C5_set_write_target
    (⟨[("b", 9)], [[("b", some 1)]]⟩ : KeyValueStore Nat) "k" 4).1
    [("b", some 1)] [] rfl
  have h2 := (C5_set_write_target
    (⟨[("b", 9)], []⟩ : KeyValueStore Nat) "k" 4).2 rfl
  exact ⟨h1.1, h1.2.1, h1.2.2.2 "b" (by decide), h2.2.1⟩

/-- C6: `Del` semantics.  With an open transaction, `Del` records an
explicit tombstone for the key in the innermost layer (the layer holds a
`none` entry, not no entry), which makes `Get` return absent whatever outer
layers or the base hold; outer layers and the base are unchanged.  With no
open transaction, `Del` erases the key from the base store, and erasing an
absent key leaves the base store exactly unchanged. -/
theorem C6_del_semantics {T : Type} (s : KeyValueStore T) (k : String) :
    (∀ top rest, s.transactions_ = top :: rest →
        (s.Del k).data_ = s.data_ ∧
        (s.Del k).transactions_ = mapInsert top k none :: rest ∧
        mapFind? (mapInsert top k none) k = some none ∧
        (s.Del k).Get k = none) ∧
    (s.transactions_ = [] →
        (s.Del k).transactions_ = [] ∧
        (s.Del k).data_ = mapErase s.data_ k ∧
        mapFind? (mapErase s.data_ k) k = none ∧
        (∀ k2, k2 ≠ k →
          mapFind? (mapErase s.data_ k) k2 = mapFind? s.data_ k2) ∧
        (mapFind? s.data_ k = none → (s.Del k).data_ = s.data_)) := by
  obtain ⟨d, ts⟩ := s
  constructor
  · intro top rest hts
    have h' : ts = top :: rest := hts
    subst h'
    refine ⟨rfl, rfl, mapFind_insert_self _ _ _, ?_⟩
    simp [KeyValueStore.Del, KeyValueStore.Get, scanLayers, mapFind_insert_self]
  · intro hts
    have h' : ts = [] := hts
    subst h'
    exact ⟨rfl, rfl, mapFind_erase_self _ _,
      fun k2 h2 => mapFind_erase_ne _ _ _ (Ne.symm h2),
      fun hnone => mapErase_of_find_none d k hnone⟩

/-- Witness for C6: a tombstone recorded over a base value makes `Get`
absent; with no transaction, deleting a missing key is a no-op on the
base. -/
theorem C6_witness :
    ((⟨[("k", 3)], [[]]⟩ : KeyValueStore Nat).Del "k").Get "k" = none ∧
    ((⟨[("b", 9)], []⟩ : KeyValueStore Nat).Del "k").data_ = [("b", 9)] := by
  have h1 := (C6_del_semantics (⟨[("k", 3)], [[]]⟩ : KeyValueStore Nat) "k").1
    [] [] rfl
  have h2 := (C6_del_semantics (⟨[("b", 9)], []⟩ : KeyValueStore Nat) "k").2 rfl
  exact ⟨h1.2.2.2, h2.2.2.2.2 (by decide)⟩

/-- C2: `Commit` semantics.  On an empty diff stack, `Commit` changes
nothing.  Otherwise it pops the innermost layer; if a layer remains below,
every popped entry — value or tombstone, verbatim — overwrites that layer's
entry for the same key while its other keys, the deeper layers and the base
store stay unchanged; if the stack became empty, tombstones erase their
keys from the base store, values overwrite them, and all other base keys
stay unchanged. -/
theorem C2_commit_semantics {T : Type} (s : KeyValueStore T) :
    (s.transactions_ = [] → s.Commit = s) ∧
    (∀ top below deeper, s.transactions_ = top :: below :: deeper →
        NodupKeys top →
        (s.Commit).data_ = s.data_ ∧
        (s.Commit).transactions_ = mergeInto below top :: deeper ∧
        (∀ k2, mapFind? (mergeInto below top) k2 =
          match mapFind? top k2 with
          | some e => some e
          | none => mapFind? below k2)) ∧
    (∀ top, s.transactions_ = [top] → NodupKeys top →
        (s.Commit).transactions_ = [] ∧
        (∀ k2, mapFind? (s.Commit).data_ k2 =
          match mapFind? top k2 with
          | some none => none
          | some (some v) => some v
          | none => mapFind? s.data_ k2)) := by
  obtain ⟨d, ts⟩ := s
  refine ⟨?_, ?_, ?_⟩
  · intro hts
    have h' : ts = [] := hts
    subst h'
    rfl
  · intro top below deeper hts hnd
    have h' : ts = top :: below :: deeper := hts
    subst h'
    exact ⟨rfl, rfl, fun k2 => mapFind_mergeInto top below k2 hnd⟩
  · intro top hts hnd
    have h' : ts = [top] := hts
    subst h'
    exact ⟨rfl, fun k2 => mapFind_applyLayer top d k2 hnd⟩

/-- Witness for C2: the three cases at concrete stores — an empty stack; a
two-layer stack whose popped layer holds a value for `"k"` and whose
receiving layer holds a tombstone for `"k"` and a value for `"b"`; a
one-layer stack holding a tombstone for `"k"` and a value for `"c"` over a
base holding `"k"` and `"b"`. -/
theorem C2_witness :
    ((⟨[("a", 1)], []⟩ : KeyValueStore Nat).Commit = ⟨[("a", 1)], []⟩) ∧
    ((⟨[("a", 1)], [[("k", some 2)], [("k", none), ("b", some 7)]]⟩ :
        KeyValueStore Nat).Commit.data_ = [("a", 1)] ∧
     mapFind? (mergeInto [("k", none), ("b", (some 7 : Option Nat))]
        [("k", some 2)]) "k" = some (some 2) ∧
     mapFind? (mergeInto [("k", none), ("b", (some 7 : Option Nat))]
        [("k", some 2)]) "b" = some (some 7)) ∧
    ((⟨[("k", 1), ("b", 5)], [[("k", none), ("c", some 3)]]⟩ :
        KeyValueStore Nat).Commit.transactions_ = [] ∧
     mapFind? (⟨[("k", 1), ("b", 5)], [[("k", none), ("c", some 3)]]⟩ :
        KeyValueStore Nat).Commit.data_ "k" = none ∧
     mapFind? (⟨[("k", 1), ("b", 5)], [[("k", none), ("c", some 3)]]⟩ :
        KeyValueStore Nat).Commit.data_ "c" = some 3 ∧
     mapFind? (⟨[("k", 1), ("b", 5)], [[("k", none), ("c", some 3)]]⟩ :
        KeyValueStore Nat).Commit.data_ "b" = some 5) := by
  have h1 := (C2_commit_semantics (⟨[("a", 1)], []⟩ : KeyValueStore Nat)).1 rfl
  have h2 := (C2_commit_semantics
    (⟨[("a", 1)], [[("k", some 2)], [("k", none), ("b", some 7)]]⟩ :
      KeyValueStore Nat)).2.1 [("k", some 2)] [("k", none), ("b", some 7)] []
    rfl (by unfold NodupKeys; decide)
  have h3 := (C2_commit_semantics
    (⟨[("k", 1), ("b", 5)], [[("k", none), ("c", some 3)]]⟩ :
      KeyValueStore Nat)).2.2 [("k", none), ("c", some 3)] rfl
    (by unfold NodupKeys; decide)
  refine ⟨h1, ⟨h2.1, ?_, ?_⟩, h3.1, ?_, ?_, ?_⟩
  · rw [h2.2.2 "k"]; decide
  · rw [h2.2.2 "b"]; decide
  · rw [h3.2 "k"]; decide
  · rw [h3.2 "c"]; decide
  · rw [h3.2 "b"]; decide

/-! ### Fold lemmas for `Keys`, `Values`, `Count` -/

theorem keys_foldl_filter {T : Type} [DecidableEq T] (l : Map T) (v : T)
    (acc : List String) :
    l.foldl (fun keys kv => if kv.2 = v then keys ++ [kv.1] else keys) acc
      = acc ++ (l.filter (fun kv => kv.2 = v)).map Prod.fst := by
  induction l generalizing acc with
  | nil => simp
  | cons hd tl ih =>
      by_cases h : hd.2 = v <;>
        simp [List.filter_cons, h, ih, List.append_assoc]

theorem keys_foldl_all {T : Type} (l : Map T) (acc : List String) :
    l.foldl (fun keys kv => keys ++ [kv.1]) acc = acc ++ l.map Prod.fst := by
  induction l generalizing acc with
  | nil => simp
  | cons hd tl ih => simp [ih, List.append_assoc]

theorem count_foldl_filter_mod {T : Type} [DecidableEq T] (l : Map T) (v : T)
    (acc : Nat) (hacc : acc < UINT32_MOD) :
    l.foldl (fun c kv => if kv.2 = v then (c + 1) % UINT32_MOD else c) acc
      = (acc + (l.filter (fun kv => kv.2 = v)).length) % UINT32_MOD := by
  induction l generalizing acc with
  | nil => simp [Nat.mod_eq_of_lt hacc]
  | cons hd tl ih =>
      have hpos : 0 < UINT32_MOD := by
        rw [UINT32_MOD]
        omega
      by_cases h : hd.2 = v
      · have h2 : (hd :: tl).foldl
            (fun c kv => if kv.2 = v then (c + 1) % UINT32_MOD else c) acc
            = tl.foldl (fun c kv => if kv.2 = v then (c + 1) % UINT32_MOD else c)
                ((acc + 1) % UINT32_MOD) := by
          rw [List.foldl_cons]
          simp [h]
        have h3 : ((hd :: tl).filter (fun kv => kv.2 = v)).length
            = (tl.filter (fun kv => kv.2 = v)).length + 1 := by
          simp [List.filter_cons, h]
        rw [h2, ih ((acc + 1) % UINT32_MOD) (Nat.mod_lt _ hpos), h3,
          Nat.mod_add_mod]
        congr 1
        omega
      · have h2 : (hd :: tl).foldl
            (fun c kv => if kv.2 = v then (c + 1) % UINT32_MOD else c) acc
            = tl.foldl (fun c kv => if kv.2 = v then (c + 1) % UINT32_MOD else c)
                acc := by
          rw [List.foldl_cons]
          simp [h]
        have h3 : ((hd :: tl).filter (fun kv => kv.2 = v)).length
            = (tl.filter (fun kv => kv.2 = v)).length := by
          simp [List.filter_cons, h]
        rw [h2, h3, ih acc hacc]

/-- C9 (amended): `Count`/`Keys`/filter consistency holds modulo the
`uint32_t` width.  In every store state and for every filter value `v`,
`Count (some v)` equals the length of `Keys (some v)` reduced modulo
`2^32`, which is the number of visible-state entries with value `v` modulo
`2^32`; with no filter, `Count` is the number of visible-state entries
modulo `2^32` and `Keys` lists exactly its keys.  Whenever the visible
state has fewer than `2^32` entries — every state a real process can hold
below that size — the original exact equalities follow. -/
theorem C9_count_keys_consistency {T : Type} [DecidableEq T]
    (s : KeyValueStore T) (v : T) :
    s.Count (some v) = (s.Keys (some v)).length % UINT32_MOD ∧
    s.Count (some v)
      = ((s.BuildVisibleState).filter (fun kv => kv.2 = v)).length % UINT32_MOD ∧
    s.Count none = (s.BuildVisibleState).length % UINT32_MOD ∧
    s.Keys none = (s.BuildVisibleState).map Prod.fst ∧
    ((s.BuildVisibleState).length < UINT32_MOD →
      s.Count (some v) = (s.Keys (some v)).length ∧
      s.Count none = (s.BuildVisibleState).length) := by
  have hkeys : s.Keys (some v)
      = ((s.BuildVisibleState).filter (fun kv => kv.2 = v)).map Prod.fst := by
    simpa using keys_foldl_filter (s.BuildVisibleState) v []
  have hcount : s.Count (some v)
      = ((s.BuildVisibleState).filter (fun kv => kv.2 = v)).length
          % UINT32_MOD := by
    have h0 : (0 : Nat) < UINT32_MOD := by
      rw [UINT32_MOD]
      omega
    simpa using count_foldl_filter_mod (s.BuildVisibleState) v 0 h0
  have hkl : (s.Keys (some v)).length
      = ((s.BuildVisibleState).filter (fun kv => kv.2 = v)).length := by
    rw [hkeys, List.length_map]
  refine ⟨by rw [hcount, hkl], hcount, rfl, ?_, fun hlt => ⟨?_, ?_⟩⟩
  · simpa using keys_foldl_all (s.BuildVisibleState) []
  · have hle : ((s.BuildVisibleState).filter (fun kv => kv.2 = v)).length
        ≤ (s.BuildVisibleState).length := List.length_filter_le _ _
    rw [hcount, hkl, Nat.mod_eq_of_lt (Nat.lt_of_le_of_lt hle hlt)]
  · show (s.BuildVisibleState).length % UINT32_MOD
        = (s.BuildVisibleState).length
    exact Nat.mod_eq_of_lt hlt

/-- Witness for C9 at a concrete three-entry store (fewer than `2^32`
entries, so the exact equalities hold there). -/
theorem C9_witness :
    ((⟨[("a", 1), ("b", 2), ("c", 1)], []⟩ :
        KeyValueStore Nat).BuildVisibleState).length < UINT32_MOD ∧
    ((⟨[("a", 1), ("b", 2), ("c", 1)], []⟩ : KeyValueStore Nat).Count (some 1)
      = ((⟨[("a", 1), ("b", 2), ("c", 1)], []⟩ :
          KeyValueStore Nat).Keys (some 1)).length ∧
     (⟨[("a", 1), ("b", 2), ("c", 1)], []⟩ : KeyValueStore Nat).Count none
      = ((⟨[("a", 1), ("b", 2), ("c", 1)], []⟩ :
          KeyValueStore Nat).BuildVisibleState).length) := by
  have hlt : ((⟨[("a", 1), ("b", 2), ("c", 1)], []⟩ :
      KeyValueStore Nat).BuildVisibleState).length < UINT32_MOD := by
    show (3 : Nat) < UINT32_MOD
    rw [UINT32_MOD]
    omega
  exact ⟨hlt,
    (C9_count_keys_consistency
      (⟨[("a", 1), ("b", 2), ("c", 1)], []⟩ : KeyValueStore Nat) 1).2.2.2.2 hlt⟩

/-! ### The uint32_t wrap at 2^32 visible entries -/

theorem tallKey_injective : Function.Injective tallKey := by
  intro i j h
  have hdata : List.replicate i 'a' = List.replicate j 'a' := by
    have := congrArg String.data h
    simpa [tallKey] using this
  have := congrArg List.length hdata
  simpa using this

theorem mapInsert_of_not_mem {V : Type} (m : Map V) (k : String) (v : V)
    (h : k ∉ keysOf m) : mapInsert m k v = m ++ [(k, v)] := by
  induction m with
  | nil => rfl
  | cons hd tl ih =>
      obtain ⟨k1, v1⟩ := hd
      rw [keysOf_cons, List.mem_cons] at h
      push_neg at h
      have h1 : ¬k1 = k := fun hh => h.1 hh.symm
      simp [mapInsert, h1, ih h.2]

theorem foldl_mapInsert_append {V : Type} (ps : List (String × V)) (m : Map V)
    (h : (keysOf m ++ ps.map Prod.fst).Nodup) :
    ps.foldl (fun acc p => mapInsert acc p.1 p.2) m = m ++ ps := by
  induction ps generalizing m with
  | nil => simp
  | cons p ps ih =>
      have hnd := List.nodup_append.1 h
      have hnotmem : p.1 ∉ keysOf m := fun hmem => hnd.2.2 hmem (by simp)
      have hins : mapInsert m p.1 p.2 = m ++ [p] :=
        mapInsert_of_not_mem m p.1 p.2 hnotmem
      have h' : (keysOf (m ++ [p]) ++ ps.map Prod.fst).Nodup := by
        simpa [keysOf, List.append_assoc] using h
      rw [List.foldl_cons, hins, ih (m ++ [p]) h', List.append_assoc,
        List.singleton_append]

theorem foldl_set_ops {T : Type} (pairs : List (String × T)) (d : Map T) :
    (pairs.map (fun p => Op.setKV p.1 p.2)).foldl applyOp ⟨d, []⟩
      = ⟨pairs.foldl (fun m p => mapInsert m p.1 p.2) d, []⟩ := by
  induction pairs generalizing d with
  | nil => rfl
  | cons p ps ih =>
      rw [List.map_cons, List.foldl_cons, List.foldl_cons,
        show applyOp ⟨d, []⟩ (Op.setKV p.1 p.2)
          = (⟨mapInsert d p.1 p.2, []⟩ : KeyValueStore T) from rfl, ih]

theorem runOps_overflowOps : runOps overflowOps = ⟨overflowPairs, []⟩ := by
  have h2 : (keysOf ([] : Map Nat) ++ overflowPairs.map Prod.fst).Nodup := by
    have hcomp : (Prod.fst ∘ fun i : Nat => (tallKey i, (0 : Nat))) = tallKey := by
      funext i
      rfl
    have hmap : overflowPairs.map Prod.fst = (List.range UINT32_MOD).map tallKey := by
      rw [overflowPairs, List.map_map, hcomp]
    rw [keysOf, List.map_nil, List.nil_append, hmap]
    exact (List.nodup_range UINT32_MOD).map tallKey_injective
  have h3 := foldl_mapInsert_append overflowPairs ([] : Map Nat) h2
  rw [runOps, overflowOps, KeyValueStore.empty,
    foldl_set_ops overflowPairs ([] : Map Nat), h3, List.nil_append]

/-- With no open transaction, the visible state is the base data itself. -/
theorem bvs_no_layers {T : Type} (d : Map T) :
    (⟨d, []⟩ : KeyValueStore T).BuildVisibleState = d := rfl

/-- Unfolding of the filtered `Count` into its fold, for a symbolic store. -/
theorem count_some_eq {T : Type} [DecidableEq T] (s : KeyValueStore T) (v : T) :
    s.Count (some v) = (s.BuildVisibleState).foldl
      (fun c kv => if kv.2 = v then (c + 1) % UINT32_MOD else c) 0 := rfl

/-- Unfolding of the unfiltered `Count`, for a symbolic store. -/
theorem count_none_eq {T : Type} [DecidableEq T] (s : KeyValueStore T) :
    s.Count none = (s.BuildVisibleState).length % UINT32_MOD := rfl

/-- The filtered `Keys` lists the first components of the matching
visible-state entries. -/
theorem keys_some_eq {T : Type} [DecidableEq T] (s : KeyValueStore T) (v : T) :
    s.Keys (some v)
      = ((s.BuildVisibleState).filter (fun kv => kv.2 = v)).map Prod.fst := by
  simpa using keys_foldl_filter (s.BuildVisibleState) v []

/-- C9 counterexample: after `2^32` `Set` calls with pairwise distinct keys
and value `0` from the fresh store — a reachable state — the visible state
has `2^32` entries and `Keys(0)` lists all of them, but the
`uint32_t`-valued `Count(0)` wraps to `0` and the unfiltered `Count()`
truncates to `0`: the claimed exact equalities fail. -/
theorem C9_counterexample :
    (runOps overflowOps).Count (some 0)
      ≠ ((runOps overflowOps).Keys (some 0)).length ∧
    (runOps overflowOps).Count none
      ≠ ((runOps overflowOps).BuildVisibleState).length := by
  rw [runOps_overflowOps]
  have hbvs : (⟨overflowPairs, []⟩ : KeyValueStore Nat).BuildVisibleState
      = overflowPairs := bvs_no_layers overflowPairs
  have hlen : overflowPairs.length = UINT32_MOD := by
    rw [overflowPairs, List.length_map, List.length_range]
  have hfilter : overflowPairs.filter (fun kv => kv.2 = 0) = overflowPairs := by
    rw [List.filter_eq_self]
    intro a ha
    rw [overflowPairs, List.mem_map] at ha
    obtain ⟨i, _, rfl⟩ := ha
    simp
  have hpos : 0 < UINT32_MOD := by
    rw [UINT32_MOD]
    omega
  have hcount : (⟨overflowPairs, []⟩ : KeyValueStore Nat).Count (some 0) = 0 := by
    rw [count_some_eq, hbvs, count_foldl_filter_mod overflowPairs 0 0 hpos,
      hfilter, hlen, Nat.zero_add, Nat.mod_self]
  have hkeyslen :
      ((⟨overflowPairs, []⟩ : KeyValueStore Nat).Keys (some 0)).length
        = UINT32_MOD := by
    rw [keys_some_eq, hbvs, hfilter, List.length_map, hlen]
  have hcnone : (⟨overflowPairs, []⟩ : KeyValueStore Nat).Count none = 0 := by
    rw [count_none_eq, hbvs, hlen, Nat.mod_self]
  refine ⟨?_, ?_⟩
  · rw [hcount, hkeyslen]
    intro hh
    rw [UINT32_MOD] at hh
    omega
  · rw [hcnone, hbvs, hlen]
    intro hh
    rw [UINT32_MOD] at hh
    omega

end KVStore
